import Mathlib

/-!
# hopper.go: the minimum valid number not blocked by any block range

A shallow embedding of `minValue` from `src/hopper.go`.

* A block range is the pair `(tuple[0], tuple[1])` of a Go `[]int`.
* Go's `int` is 64 bits wide and the only arithmetic in the function,
  `tuple[1] + 1`, wraps at `tuple[1] = 2^63 - 1`.  `advance64`, `loop64` and
  `minValue64` are the code with that wraparound (`wrap64`).  `advance`, `loop`
  and `minValue` are the same algorithm over unbounded integers; the two agree
  on every input whose upper bounds are below `2^63 - 1`
  (`minValue64_eq_minValue`, `returns_eq_minValue`) and differ once a sum wraps
  (`minValue64_wraps_at_max`).
* `sort.Slice` is not a stable sort: all that Go promises of its result is
  that it is a rearrangement of the slice in which no element is `less` than
  an element before it (`SortResult`).  It sorts at most 12 elements by
  insertion, which is the executable `sortSlice`; statements about every run
  of the code are made over every result of the sort (`MinValueReturns`).
  While no sum wraps the loop yields the same value on every result of the
  sort (`loop_sortResult_eq`); after a wrap the order of equal lower bounds
  shows in the value returned.
* `minValueRun` adds the effect on the caller's slice, `minValueMerged` is the
  merge-first procedure of the design notes, and `minValueRaw` is the function
  on a `[][]int` whose elements may have any length, with `none` for the
  index-out-of-range panic.
-/

namespace Hopper

/-- A block range `(x1, x2)`: the first two elements of a `[]int` tuple. -/
abbrev BlockRange := Int × Int

/-- The comparator given to `sort.Slice`:
`blockRanges[i][0] < blockRanges[j][0]`. -/
def less (a b : BlockRange) : Bool := decide (a.1 < b.1)

/-- Insert `x` into a list ordered by `less`, after the elements that are
`less` than it. -/
def insertByLess (x : BlockRange) : List BlockRange → List BlockRange
  | [] => [x]
  | y :: ys => if less y x then y :: insertByLess x ys else x :: y :: ys

/-- Executable model of `sort.Slice(blockRanges, less)`: a stable insertion
sort.  It is the order `sort.Slice` produces on at most 12 elements; on longer
slices `sort.Slice` may order equal lower bounds otherwise, and statements
about every run are made over `SortResult`. -/
def sortSlice : List BlockRange → List BlockRange
  | [] => []
  | x :: xs => insertByLess x (sortSlice xs)

/-- What `sort.Slice` guarantees of its result `sorted` on input `ranges`: the
same elements, and no element `less` than one that precedes it. -/
def SortResult (ranges sorted : List BlockRange) : Prop :=
  sorted.Perm ranges ∧ sorted.Pairwise (fun a b => less b a = false)

instance (ranges sorted : List BlockRange) : Decidable (SortResult ranges sorted) := by
  unfold SortResult; infer_instance

/-- One iteration's update of `minimum` over unbounded integers:
`if tuple[0] <= minimum && tuple[1] >= minimum { minimum = tuple[1] + 1 }`
with a sum that never wraps.  The update the code performs is `advance64`. -/
def advance (tuple : BlockRange) (minimum : Int) : Int :=
  if tuple.1 ≤ minimum ∧ tuple.2 ≥ minimum then tuple.2 + 1 else minimum

/-- The `for _, tuple := range blockRanges` loop together with the final
`return minimum`, started with the given value of `minimum`, over unbounded
integers.  The loop the code performs is `loop64`. -/
def loop (maxValue : Int) : List BlockRange → Int → Int
  | [], minimum => minimum
  | tuple :: rest, minimum =>
    if advance tuple minimum > maxValue then -1
    else loop maxValue rest (advance tuple minimum)

/-- The algorithm of `minValue` over unbounded integers.  It is what the code
computes when no `tuple[1] + 1` wraps (`minValue64_eq_minValue`); the code
itself is `minValue64`. -/
def minValue (maxValue : Int) (blockRanges : List BlockRange) : Int :=
  loop maxValue (sortSlice blockRanges) 0

/-- Go's `int` on a 64-bit platform: the two's-complement value an integer
wraps to. -/
def wrap64 (x : Int) : Int := (x + 2 ^ 63) % 2 ^ 64 - 2 ^ 63

/-- The largest value of Go's 64-bit `int`. -/
def maxInt64 : Int := 2 ^ 63 - 1

/-- The smallest value of Go's 64-bit `int`. -/
def minInt64 : Int := -2 ^ 63

/-- One iteration's update of `minimum` as the code performs it:
`if tuple[0] <= minimum && tuple[1] >= minimum { minimum = tuple[1] + 1 }`,
the sum wrapping as Go's `int` does. -/
def advance64 (tuple : BlockRange) (minimum : Int) : Int :=
  if tuple.1 ≤ minimum ∧ tuple.2 ≥ minimum then wrap64 (tuple.2 + 1) else minimum

/-- The `for _, tuple := range blockRanges` loop together with the final
`return minimum` as the code performs them, started with the given value of
`minimum`. -/
def loop64 (maxValue : Int) : List BlockRange → Int → Int
  | [], minimum => minimum
  | tuple :: rest, minimum =>
    if advance64 tuple minimum > maxValue then -1
    else loop64 maxValue rest (advance64 tuple minimum)

/-- The function `minValue` of `hopper.go` over Go's 64-bit `int`, with
`sortSlice` for the sort: the code on every slice of at most 12 elements, which
`sort.Slice` sorts by insertion, and on every slice whose lower bounds are all
different. -/
def minValue64 (maxValue : Int) (blockRanges : List BlockRange) : Int :=
  loop64 maxValue (sortSlice blockRanges) 0

/-- The values the call `minValue(maxValue, blockRanges)` can return whatever
order `sort.Slice` gives to equal lower bounds: the value of the loop over some
result of the sort. -/
def MinValueReturns (maxValue : Int) (blockRanges : List BlockRange) (v : Int) : Prop :=
  ∃ sorted, SortResult blockRanges sorted ∧ loop64 maxValue sorted 0 = v

/-- The loop as the code performs it, without the `minimum > maxValue` exit. -/
def loopAll64 : List BlockRange → Int → Int
  | [], minimum => minimum
  | tuple :: rest, minimum => loopAll64 rest (advance64 tuple minimum)

/-- The value `x` is blocked by `ranges`: some `(x1, x2)` has `x1 ≤ x ≤ x2`. -/
def Blocked (ranges : List BlockRange) (x : Int) : Prop :=
  ∃ t ∈ ranges, t.1 ≤ x ∧ x ≤ t.2

instance (ranges : List BlockRange) (x : Int) : Decidable (Blocked ranges x) := by
  unfold Blocked; infer_instance

/-- Specification of the result (contract of the finder): `v` is the smallest
integer in `[0, bound]` that no interval contains, or `v` is the sentinel `-1`
and no such integer exists. -/
def IsMinUnblocked (bound : Int) (ranges : List BlockRange) (v : Int) : Prop :=
  (0 ≤ v ∧ v ≤ bound ∧ ¬ Blocked ranges v ∧ ∀ u, 0 ≤ u → u < v → Blocked ranges u) ∨
    (v = -1 ∧ ∀ u, 0 ≤ u → u ≤ bound → Blocked ranges u)

instance (bound : Int) (ranges : List BlockRange) (v : Int) :
    Decidable (IsMinUnblocked bound ranges v) := by
  unfold IsMinUnblocked; infer_instance

/-- The block ranges with which `main` calls `minValue`. -/
def mainRanges : List BlockRange := [(0, 0), (1, 2), (3, 9), (8, 8)]

/-- The loop over unbounded integers without the `minimum > maxValue` exit. -/
def loopAll : List BlockRange → Int → Int
  | [], minimum => minimum
  | tuple :: rest, minimum => loopAll rest (advance tuple minimum)

/-- The call `minValue(maxValue, blockRanges)` together with its effect on the
caller's slice: the value returned, and the contents of `blockRanges` when the
call returns.  `sort.Slice` rearranges the slice in place before the loop, and
the loop only reads it, on the `return -1` path and on the `return minimum`
path alike. -/
def minValueRun (maxValue : Int) (blockRanges : List BlockRange) : Int × List BlockRange :=
  (loop maxValue (sortSlice blockRanges) 0, sortSlice blockRanges)

/-- A value of Go's 64-bit `int`. -/
def IsInt64 (x : Int) : Prop := -2 ^ 63 ≤ x ∧ x < 2 ^ 63

instance (x : Int) : Decidable (IsInt64 x) := by
  unfold IsInt64; infer_instance

/-- Merge-first procedure of the design notes, the merging pass: `cur` is the
current merged range; an interval whose lower bound is at most the current
merged upper bound + 1 is merged into it (upper bound = max of the two), any
other interval closes `cur` and becomes the current merged range. -/
def mergeInto (cur : BlockRange) : List BlockRange → List BlockRange
  | [] => [cur]
  | t :: rest =>
    if t.1 ≤ cur.2 + 1 then mergeInto (cur.1, max cur.2 t.2) rest
    else cur :: mergeInto t rest

/-- Merge-first procedure of the design notes: the intervals, already sorted by
lower bound, merged into non-overlapping ranges. -/
def mergeRanges : List BlockRange → List BlockRange
  | [] => []
  | t :: rest => mergeInto t rest

/-- Merge-first procedure of the design notes: sort by lower bound, merge, then
run the same sweep once over the merged list. -/
def minValueMerged (bound : Int) (ranges : List BlockRange) : Int :=
  loop bound (mergeRanges (sortSlice ranges)) 0

/-! ### Slices of slices

`blockRanges` has type `[][]int`: an element may have any length.  In the
definitions below an element is a `List Int`, and `none` is the run-time panic
of an index out of range. -/

/-- The comparator given to `sort.Slice` on elements of any length:
`blockRanges[i][0] < blockRanges[j][0]`. -/
def lessRaw (a b : List Int) : Option Bool :=
  match a[0]? with
  | none => none
  | some x =>
    match b[0]? with
    | none => none
    | some y => some (decide (x < y))

/-- The insertion of `insertByLess` on elements of any length. -/
def insertByLessRaw (x : List Int) : List (List Int) → Option (List (List Int))
  | [] => some [x]
  | y :: ys =>
    match lessRaw y x with
    | none => none
    | some true =>
      match insertByLessRaw x ys with
      | none => none
      | some s => some (y :: s)
    | some false => some (x :: y :: ys)

/-- The sort of `sortSlice` on elements of any length. -/
def sortSliceRaw : List (List Int) → Option (List (List Int))
  | [] => some []
  | x :: xs =>
    match sortSliceRaw xs with
    | none => none
    | some s => insertByLessRaw x s

/-- One iteration's update of `minimum` on an element of any length.  Go's `&&`
evaluates `tuple[1] >= minimum` only when `tuple[0] <= minimum` holds. -/
def advanceRaw (tuple : List Int) (minimum : Int) : Option Int :=
  match tuple[0]? with
  | none => none
  | some t0 =>
    if t0 ≤ minimum then
      match tuple[1]? with
      | none => none
      | some t1 => if t1 ≥ minimum then some (t1 + 1) else some minimum
    else some minimum

/-- The loop on elements of any length. -/
def loopRaw (maxValue : Int) : List (List Int) → Int → Option Int
  | [], minimum => some minimum
  | tuple :: rest, minimum =>
    match advanceRaw tuple minimum with
    | none => none
    | some m => if m > maxValue then some (-1) else loopRaw maxValue rest m

/-- The function `minValue` on a `[][]int` with elements of any length. -/
def minValueRaw (maxValue : Int) (blockRanges : List (List Int)) : Option Int :=
  match sortSliceRaw blockRanges with
  | none => none
  | some sorted => loopRaw maxValue sorted 0

/-- The block range an element of length at least two stands for: its first
two elements. -/
def toBlockRange (tuple : List Int) : BlockRange := (tuple.getD 0 0, tuple.getD 1 0)

/-- A slice of 12 block ranges: nine copies of the malformed `(2, 1)`, then
`(MinInt64, 5)` twice, then `(MinInt64, MaxInt64)`. -/
def tieRanges : List BlockRange :=
  [(2, 1), (2, 1), (2, 1), (2, 1), (2, 1), (2, 1), (2, 1), (2, 1), (2, 1),
    (minInt64, 5), (minInt64, 5), (minInt64, maxInt64)]

/-- The order in which `sort.Slice` leaves the 13 elements `(2, 1) :: tieRanges`.
It is read off the library's pattern-defeating quicksort (Go 1.19 and later),
which is not part of the repository: on more than 12 elements the pivot is one
of the elements at indices 3, 6, 9, each a `(2, 1)`; the partition swaps the
three ranges of lower bound MinInt64 to indices 1, 2, 3 from the right end
inwards, so `(MinInt64, MaxInt64)` lands at index 1, then swaps index 3 with
the pivot at index 0; both sides are then sorted by insertion, which moves
nothing. -/
def pdqOrder : List BlockRange :=
  [(minInt64, 5), (minInt64, maxInt64), (minInt64, 5),
    (2, 1), (2, 1), (2, 1), (2, 1), (2, 1), (2, 1), (2, 1), (2, 1), (2, 1), (2, 1)]

/-! ## The sort -/

theorem insertByLess_perm (x : BlockRange) (l : List BlockRange) :
    (insertByLess x l).Perm (x :: l) := by
  induction l with
  | nil => exact List.Perm.refl _
  | cons y ys ih =>
    unfold insertByLess
    split
    · exact (List.Perm.cons y ih).trans (List.Perm.swap x y ys)
    · exact List.Perm.refl _

theorem sortSlice_perm (l : List BlockRange) : (sortSlice l).Perm l := by
  induction l with
  | nil => exact List.Perm.refl _
  | cons x xs ih =>
    unfold sortSlice
    exact (insertByLess_perm x _).trans (List.Perm.cons x ih)

theorem insertByLess_pairwise (x : BlockRange) (l : List BlockRange)
    (h : l.Pairwise (fun a b => less b a = false)) :
    (insertByLess x l).Pairwise (fun a b => less b a = false) := by
  induction l with
  | nil => simp [insertByLess]
  | cons y ys ih =>
    rw [List.pairwise_cons] at h
    unfold insertByLess
    split
    · rename_i hyx
      rw [List.pairwise_cons]
      refine ⟨?_, ih h.2⟩
      intro z hz
      rcases List.mem_cons.1 ((List.Perm.mem_iff (insertByLess_perm x ys)).1 hz) with hz | hz
      · subst hz
        simp only [less, decide_eq_true_eq, decide_eq_false_iff_not] at hyx ⊢
        omega
      · exact h.1 z hz
    · rename_i hyx
      rw [List.pairwise_cons]
      refine ⟨?_, List.pairwise_cons.2 h⟩
      intro z hz
      simp only [less, decide_eq_true_eq, decide_eq_false_iff_not, not_lt] at hyx ⊢
      rcases List.mem_cons.1 hz with hz | hz
      · subst hz; exact hyx
      · have := h.1 z hz
        simp only [less, decide_eq_false_iff_not, not_lt] at this
        omega

theorem sortSlice_pairwise (l : List BlockRange) :
    (sortSlice l).Pairwise (fun a b => less b a = false) := by
  induction l with
  | nil => simp [sortSlice]
  | cons x xs ih =>
    unfold sortSlice
    exact insertByLess_pairwise x _ ih

/-- The executable sort is one of the results `sort.Slice` may produce. -/
theorem sortSlice_sortResult (l : List BlockRange) : SortResult l (sortSlice l) :=
  ⟨sortSlice_perm l, sortSlice_pairwise l⟩

/-! ## The loop -/

theorem le_advance (t : BlockRange) (c : Int) : c ≤ advance t c := by
  unfold advance
  split <;> omega

theorem le_loopAll (s : List BlockRange) (c : Int) : c ≤ loopAll s c := by
  induction s generalizing c with
  | nil => simp [loopAll]
  | cons t rest ih =>
    unfold loopAll
    exact le_trans (le_advance t c) (ih _)

/-- On a non-empty slice the loop returns the value of `minimum` reached at the
end when that value is at most `maxValue`, and `-1` otherwise. -/
theorem loop_eq_loopAll (b : Int) (s : List BlockRange) (c : Int) (hs : s ≠ []) :
    loop b s c = if loopAll s c ≤ b then loopAll s c else -1 := by
  induction s generalizing c with
  | nil => exact absurd rfl hs
  | cons t rest ih =>
    unfold loop loopAll
    by_cases h : advance t c > b
    · have := le_loopAll rest (advance t c)
      rw [if_pos h, if_neg (by omega)]
    · rw [if_neg h]
      cases rest with
      | nil =>
        simp only [loop, loopAll]
        rw [if_pos (by omega)]
      | cons t2 r2 => exact ih _ (by simp)

theorem blocked_cons (t : BlockRange) (rest : List BlockRange) (x : Int) :
    Blocked (t :: rest) x ↔ (t.1 ≤ x ∧ x ≤ t.2) ∨ Blocked rest x := by
  simp [Blocked]

theorem blocked_perm {l₁ l₂ : List BlockRange} (h : l₁.Perm l₂) (x : Int) :
    Blocked l₁ x ↔ Blocked l₂ x := by
  unfold Blocked
  constructor
  · rintro ⟨t, ht, hx⟩
    exact ⟨t, (List.Perm.mem_iff h).1 ht, hx⟩
  · rintro ⟨t, ht, hx⟩
    exact ⟨t, (List.Perm.mem_iff h).2 ht, hx⟩

/-- Ranges that all start above `minimum` leave it unchanged. -/
theorem loopAll_of_lt (s : List BlockRange) (c : Int) (h : ∀ t ∈ s, c < t.1) :
    loopAll s c = c := by
  induction s with
  | nil => rfl
  | cons t rest ih =>
    unfold loopAll
    have ht : c < t.1 := h t (List.mem_cons_self _ _)
    have hadv : advance t c = c := by
      unfold advance
      rw [if_neg (by omega)]
    rw [hadv]
    exact ih (fun z hz => h z (List.mem_cons_of_mem _ hz))

/-- Over ranges in ascending order of lower bound, the loop started at `c`
ends at a value that no range blocks, having passed only blocked values. -/
theorem loopAll_spec (s : List BlockRange) (c : Int)
    (hs : s.Pairwise (fun a b => less b a = false)) :
    ¬ Blocked s (loopAll s c) ∧ ∀ u, c ≤ u → u < loopAll s c → Blocked s u := by
  induction s generalizing c with
  | nil =>
    refine ⟨by simp [Blocked], ?_⟩
    intro u h1 h2
    simp only [loopAll] at h2
    omega
  | cons t rest ih =>
    rw [List.pairwise_cons] at hs
    obtain ⟨hn, hb⟩ := ih (advance t c) hs.2
    have hge := le_loopAll rest (advance t c)
    unfold loopAll
    by_cases hc : t.1 ≤ c ∧ t.2 ≥ c
    · have hadv : advance t c = t.2 + 1 := by
        unfold advance
        rw [if_pos hc]
      rw [hadv] at hn hb hge ⊢
      constructor
      · rw [blocked_cons]
        rintro (h | h)
        · omega
        · exact hn h
      · intro u h1 h2
        rw [blocked_cons]
        by_cases hu : u ≤ t.2
        · exact Or.inl ⟨by omega, hu⟩
        · exact Or.inr (hb u (by omega) h2)
    · have hadv : advance t c = c := by
        unfold advance
        rw [if_neg hc]
      rw [hadv] at hn hb hge ⊢
      constructor
      · rw [blocked_cons]
        rintro (h | h)
        · have hlt : c < t.1 := by omega
          have hall : ∀ z ∈ rest, c < z.1 := by
            intro z hz
            have := hs.1 z hz
            simp only [less, decide_eq_false_iff_not, not_lt] at this
            omega
          rw [loopAll_of_lt rest c hall] at h
          omega
        · exact hn h
      · intro u h1 h2
        rw [blocked_cons]
        exact Or.inr (hb u h1 h2)

/-- The first value from `0` upwards that no range blocks is unique. -/
theorem first_unblocked_unique (l : List BlockRange) (m n : Int)
    (hm : ¬ Blocked l m) (hm2 : ∀ u, 0 ≤ u → u < m → Blocked l u) (hm0 : 0 ≤ m)
    (hn : ¬ Blocked l n) (hn2 : ∀ u, 0 ≤ u → u < n → Blocked l u) (hn0 : 0 ≤ n) :
    m = n := by
  rcases lt_trichotomy m n with h | h | h
  · exact absurd (hn2 m hm0 h) hm
  · exact h
  · exact absurd (hm2 n hn0 h) hn

/-- The value of `minimum` at the end of the loop is the same on every result
the sort may produce. -/
theorem loopAll_sortResult_eq (ranges s₁ s₂ : List BlockRange)
    (h₁ : SortResult ranges s₁) (h₂ : SortResult ranges s₂) :
    loopAll s₁ 0 = loopAll s₂ 0 := by
  obtain ⟨a1, a2⟩ := loopAll_spec s₁ 0 h₁.2
  obtain ⟨b1, b2⟩ := loopAll_spec s₂ 0 h₂.2
  have hp : s₁.Perm s₂ := h₁.1.trans h₂.1.symm
  refine first_unblocked_unique s₁ _ _ a1 a2 (le_loopAll _ _) ?_ ?_ (le_loopAll _ _)
  · exact fun h => b1 ((blocked_perm hp _).1 h)
  · exact fun u h0 hu => (blocked_perm hp u).2 (b2 u h0 hu)

/-- Over unbounded integers the loop returns the same value on every result the
sort may produce: while no sum wraps, the order `sort.Slice` gives to ranges
with equal lower bounds is immaterial. -/
theorem loop_sortResult_eq (maxValue : Int) (ranges s₁ s₂ : List BlockRange)
    (h₁ : SortResult ranges s₁) (h₂ : SortResult ranges s₂) :
    loop maxValue s₁ 0 = loop maxValue s₂ 0 := by
  have hp : s₁.Perm s₂ := h₁.1.trans h₂.1.symm
  by_cases he : s₁ = []
  · subst he
    rw [List.Perm.nil_eq hp]
  · have he2 : s₂ ≠ [] := fun h => he (by subst h; exact List.Perm.eq_nil hp)
    rw [loop_eq_loopAll _ _ _ he, loop_eq_loopAll _ _ _ he2,
      loopAll_sortResult_eq ranges s₁ s₂ h₁ h₂]

/-- The value the algorithm over unbounded integers computes, in terms of the end value `m` of the loop
over the sorted ranges: `m` when it does not exceed `maxValue ≥ 0`, else `-1`. -/
theorem minValue_eq (maxValue : Int) (ranges : List BlockRange) (h : 0 ≤ maxValue) :
    minValue maxValue ranges =
      if loopAll (sortSlice ranges) 0 ≤ maxValue then loopAll (sortSlice ranges) 0 else -1 := by
  unfold minValue
  by_cases he : sortSlice ranges = []
  · rw [he]
    simp only [loop, loopAll]
    rw [if_pos h]
  · exact loop_eq_loopAll _ _ _ he

/-- The end value `m` of the loop over the sorted ranges is the smallest
non-negative integer that no input range blocks. -/
theorem loopAll_sortSlice_spec (ranges : List BlockRange) :
    0 ≤ loopAll (sortSlice ranges) 0 ∧ ¬ Blocked ranges (loopAll (sortSlice ranges) 0) ∧
      ∀ u, 0 ≤ u → u < loopAll (sortSlice ranges) 0 → Blocked ranges u := by
  obtain ⟨a1, a2⟩ := loopAll_spec (sortSlice ranges) 0 (sortSlice_pairwise ranges)
  refine ⟨le_loopAll _ _, ?_, ?_⟩
  · exact fun h => a1 ((blocked_perm (sortSlice_perm ranges) _).2 h)
  · exact fun u h0 hu => (blocked_perm (sortSlice_perm ranges) u).1 (a2 u h0 hu)

/-! ## Agreement with 64-bit arithmetic -/

theorem wrap64_succ (x : Int) (h₁ : -2 ^ 63 ≤ x) (h₂ : x < 2 ^ 63 - 1) :
    wrap64 (x + 1) = x + 1 := by
  unfold wrap64
  rw [Int.emod_eq_of_lt (by omega) (by omega)]
  omega

theorem loop64_eq_loop (maxValue : Int) (s : List BlockRange) (c : Int)
    (h : ∀ t ∈ s, -2 ^ 63 ≤ t.2 ∧ t.2 < 2 ^ 63 - 1) :
    loop64 maxValue s c = loop maxValue s c := by
  induction s generalizing c with
  | nil => rfl
  | cons t rest ih =>
    have ht := h t (List.mem_cons_self _ _)
    have hadv : advance64 t c = advance t c := by
      unfold advance64 advance
      rw [wrap64_succ t.2 ht.1 ht.2]
    unfold loop64 loop
    rw [hadv, ih _ (fun z hz => h z (List.mem_cons_of_mem _ hz))]

/-- With every upper bound below `2^63 - 1`, `tuple[1] + 1` never wraps and the
64-bit function returns what the function over `Int` returns. -/
theorem minValue64_eq_minValue (maxValue : Int) (ranges : List BlockRange)
    (h : ∀ t ∈ ranges, -2 ^ 63 ≤ t.2 ∧ t.2 < 2 ^ 63 - 1) :
    minValue64 maxValue ranges = minValue maxValue ranges := by
  unfold minValue64 minValue
  exact loop64_eq_loop maxValue _ 0
    (fun t ht => h t ((List.Perm.mem_iff (sortSlice_perm ranges)).1 ht))

/-- At the one upper bound left out, `2^63 - 1`, the sum wraps: with
`maxValue = 2^63 - 1` and the single range `(0, 2^63 - 1)` the 64-bit function
returns `-2^63` where the function over `Int` returns `-1`. -/
theorem minValue64_wraps_at_max :
    minValue64 (2 ^ 63 - 1) [(0, 2 ^ 63 - 1)] = -2 ^ 63 ∧
      minValue (2 ^ 63 - 1) [(0, 2 ^ 63 - 1)] = -1 := by
  decide

theorem wrap64_lt (x : Int) : wrap64 x < 2 ^ 63 := by
  unfold wrap64
  have := Int.emod_lt_of_pos (x + 2 ^ 63) (show (0 : Int) < 2 ^ 64 by norm_num)
  omega

theorem wrap64_max_succ : wrap64 (2 ^ 63 - 1 + 1) = -2 ^ 63 := by
  decide

/-- The executable function returns one of the values the call can return. -/
theorem minValue64_returns (maxValue : Int) (blockRanges : List BlockRange) :
    MinValueReturns maxValue blockRanges (minValue64 maxValue blockRanges) :=
  ⟨sortSlice blockRanges, sortSlice_sortResult blockRanges, rfl⟩

/-- Invariant of the loop as the code performs it, in any order of the ranges:
either `minimum ≥ 0` and every value of `[0, minimum)` is blocked, or a sum has
wrapped and every non-negative 64-bit value is blocked.  Hence a return of `-1`
has all of `[0, maxValue]` blocked, and any other returned value has every
non-negative value below it blocked. -/
theorem loop64_blocked (bound : Int) (ranges s : List BlockRange) (c : Int)
    (hb : bound < 2 ^ 63) (hsub : ∀ t ∈ s, t ∈ ranges) (h64 : ∀ t ∈ s, IsInt64 t.2)
    (hc : c < 2 ^ 63)
    (hJ : (0 ≤ c ∧ ∀ u, 0 ≤ u → u < c → Blocked ranges u) ∨
      (∀ u, 0 ≤ u → u < 2 ^ 63 → Blocked ranges u)) :
    (loop64 bound s c = -1 → ∀ u, 0 ≤ u → u ≤ bound → Blocked ranges u) ∧
      (loop64 bound s c ≠ -1 → ∀ u, 0 ≤ u → u < loop64 bound s c → Blocked ranges u) := by
  induction s generalizing c with
  | nil =>
    simp only [loop64]
    constructor
    · intro hv u h0 hu
      rcases hJ with ⟨hc0, -⟩ | hall
      · omega
      · exact hall u h0 (by omega)
    · intro _ u h0 hu
      rcases hJ with ⟨-, hlt⟩ | hall
      · exact hlt u h0 hu
      · exact hall u h0 (by omega)
  | cons t rest ih =>
    have ht := h64 t (List.mem_cons_self _ _)
    have htm : t ∈ ranges := hsub t (List.mem_cons_self _ _)
    have hstep : advance64 t c < 2 ^ 63 ∧
        ((0 ≤ advance64 t c ∧ ∀ u, 0 ≤ u → u < advance64 t c → Blocked ranges u) ∨
          (∀ u, 0 ≤ u → u < 2 ^ 63 → Blocked ranges u)) := by
      unfold advance64
      by_cases htr : t.1 ≤ c ∧ t.2 ≥ c
      · rw [if_pos htr]
        refine ⟨wrap64_lt _, ?_⟩
        rcases hJ with ⟨hc0, hlt⟩ | hall
        · by_cases hmax : t.2 < 2 ^ 63 - 1
          · rw [wrap64_succ t.2 ht.1 hmax]
            refine Or.inl ⟨by omega, ?_⟩
            intro u h0 hu
            by_cases huc : u < c
            · exact hlt u h0 huc
            · exact ⟨t, htm, by omega, by omega⟩
          · refine Or.inr ?_
            intro u h0 hu
            by_cases huc : u < c
            · exact hlt u h0 huc
            · have := ht.2
              exact ⟨t, htm, by omega, by omega⟩
        · exact Or.inr hall
      · rw [if_neg htr]
        exact ⟨hc, hJ⟩
    obtain ⟨hc2, hJ2⟩ := hstep
    obtain ⟨ih1, ih2⟩ := ih (advance64 t c) (fun z hz => hsub z (List.mem_cons_of_mem _ hz))
      (fun z hz => h64 z (List.mem_cons_of_mem _ hz)) hc2 hJ2
    unfold loop64
    by_cases hex : advance64 t c > bound
    · rw [if_pos hex]
      constructor
      · intro _ u h0 hu
        rcases hJ2 with ⟨-, hlt⟩ | hall
        · exact hlt u h0 (by omega)
        · exact hall u h0 (by omega)
      · intro hne
        exact absurd rfl hne
    · rw [if_neg hex]
      exact ⟨ih1, ih2⟩

/-- On every run of the code that returns `-1`, every value of `[0, maxValue]`
is blocked; on every run that returns another value, every non-negative value
below it is blocked. -/
theorem returns_blocked (bound : Int) (ranges : List BlockRange) (v : Int)
    (hb : IsInt64 bound) (h64 : ∀ t ∈ ranges, IsInt64 t.1 ∧ IsInt64 t.2)
    (hv : MinValueReturns bound ranges v) :
    (v = -1 → ∀ u, 0 ≤ u → u ≤ bound → Blocked ranges u) ∧
      (v ≠ -1 → ∀ u, 0 ≤ u → u < v → Blocked ranges u) := by
  obtain ⟨sorted, hs, hl⟩ := hv
  have h := loop64_blocked bound ranges sorted 0 hb.2
    (fun t ht => (List.Perm.mem_iff hs.1).1 ht)
    (fun t ht => (h64 t ((List.Perm.mem_iff hs.1).1 ht)).2) (by norm_num)
    (Or.inl ⟨le_refl 0, fun u h0 hu => absurd hu (by omega)⟩)
  rw [hl] at h
  exact h

/-- While no sum wraps, every run of the code returns what the algorithm over
unbounded integers returns, whatever order the sort gives to equal lower
bounds. -/
theorem returns_eq_minValue (bound : Int) (ranges : List BlockRange) (v : Int)
    (h : ∀ t ∈ ranges, -2 ^ 63 ≤ t.2 ∧ t.2 < 2 ^ 63 - 1)
    (hv : MinValueReturns bound ranges v) : v = minValue bound ranges := by
  obtain ⟨sorted, hs, hl⟩ := hv
  rw [← hl, loop64_eq_loop bound sorted 0 (fun t ht => h t ((List.Perm.mem_iff hs.1).1 ht))]
  exact loop_sortResult_eq bound ranges sorted (sortSlice ranges) hs (sortSlice_sortResult ranges)

/-- Over unbounded integers and for `maxValue ≥ 0`, the algorithm returns what
the specification asks. -/
theorem minValue_isMinUnblocked (bound : Int) (ranges : List BlockRange) (hb : 0 ≤ bound) :
    IsMinUnblocked bound ranges (minValue bound ranges) := by
  obtain ⟨h0, hn, hall⟩ := loopAll_sortSlice_spec ranges
  rw [minValue_eq bound ranges hb]
  by_cases hm : loopAll (sortSlice ranges) 0 ≤ bound
  · rw [if_pos hm]
    exact Or.inl ⟨h0, hm, hn, hall⟩
  · rw [if_neg hm]
    exact Or.inr ⟨rfl, fun u hu0 hub => hall u hu0 (by omega)⟩

/-- While no sum wraps and for `maxValue ≥ 0`, every run of the code returns
what the specification asks, whatever order the sort gives to equal lower
bounds. -/
theorem returns_isMinUnblocked (bound : Int) (ranges : List BlockRange) (v : Int)
    (hb : 0 ≤ bound) (h : ∀ t ∈ ranges, -2 ^ 63 ≤ t.2 ∧ t.2 < 2 ^ 63 - 1)
    (hv : MinValueReturns bound ranges v) : IsMinUnblocked bound ranges v := by
  rw [returns_eq_minValue bound ranges v h hv]
  exact minValue_isMinUnblocked bound ranges hb

/-- On the scenario `bound = 8`, ranges `[(0,3),(1,2),(3,9),(8,8)]` and on the
empty list no sum wraps: the code returns what the algorithm over unbounded
integers returns. -/
theorem minValue64_scenarios (bound : Int) :
    minValue64 8 [(0, 3), (1, 2), (3, 9), (8, 8)] = minValue 8 [(0, 3), (1, 2), (3, 9), (8, 8)] ∧
      minValue64 bound [] = minValue bound [] :=
  ⟨by decide, rfl⟩

/-- Over unbounded integers and for `maxValue ≥ 0`, the result depends only on
which values of `[0, maxValue]` are blocked. -/
theorem minValue_congr (bound : Int) (r₁ r₂ : List BlockRange) (hb : 0 ≤ bound)
    (h : ∀ u, 0 ≤ u → u ≤ bound → (Blocked r₁ u ↔ Blocked r₂ u)) :
    minValue bound r₁ = minValue bound r₂ := by
  obtain ⟨a0, an, aall⟩ := loopAll_sortSlice_spec r₁
  obtain ⟨b0, bn, ball⟩ := loopAll_sortSlice_spec r₂
  rw [minValue_eq bound r₁ hb, minValue_eq bound r₂ hb]
  by_cases h1 : loopAll (sortSlice r₁) 0 ≤ bound
  · have heq : loopAll (sortSlice r₂) 0 = loopAll (sortSlice r₁) 0 := by
      rcases lt_trichotomy (loopAll (sortSlice r₂) 0) (loopAll (sortSlice r₁) 0) with hlt | he | hgt
      · exact absurd ((h _ b0 (by omega)).1 (aall _ b0 hlt)) bn
      · exact he
      · exact absurd ((h _ a0 h1).2 (ball _ a0 hgt)) an
    rw [heq]
  · by_cases h2 : loopAll (sortSlice r₂) 0 ≤ bound
    · exact absurd ((h _ b0 h2).1 (aall _ b0 (by omega))) bn
    · rw [if_neg h1, if_neg h2]

/-- Over unbounded integers and for `bound ≥ 0`, the loop meets the
specification on every list in ascending order of lower bound. -/
theorem loop_isMinUnblocked (bound : Int) (s : List BlockRange) (hb : 0 ≤ bound)
    (hs : s.Pairwise (fun a b => less b a = false)) :
    IsMinUnblocked bound s (loop bound s 0) := by
  obtain ⟨hn, hall⟩ := loopAll_spec s 0 hs
  have h0 := le_loopAll s 0
  have heq : loop bound s 0 = if loopAll s 0 ≤ bound then loopAll s 0 else -1 := by
    by_cases he : s = []
    · subst he
      simp only [loop, loopAll]
      rw [if_pos hb]
    · exact loop_eq_loopAll _ _ _ he
  rw [heq]
  by_cases hm : loopAll s 0 ≤ bound
  · rw [if_pos hm]
    exact Or.inl ⟨h0, hm, hn, hall⟩
  · rw [if_neg hm]
    exact Or.inr ⟨rfl, fun u hu0 hub => hall u hu0 (by omega)⟩

/-- The specification determines the result, and only through the blocked
values of `[0, bound]`. -/
theorem isMinUnblocked_unique (bound : Int) (r₁ r₂ : List BlockRange) (v₁ v₂ : Int)
    (h : ∀ u, 0 ≤ u → u ≤ bound → (Blocked r₁ u ↔ Blocked r₂ u))
    (h₁ : IsMinUnblocked bound r₁ v₁) (h₂ : IsMinUnblocked bound r₂ v₂) : v₁ = v₂ := by
  rcases h₁ with ⟨a0, ab, an, aall⟩ | ⟨a1, aall⟩
  · rcases h₂ with ⟨b0, bb, bn, ball⟩ | ⟨-, ball⟩
    · rcases lt_trichotomy v₁ v₂ with hlt | he | hgt
      · exact absurd ((h v₁ a0 ab).2 (ball v₁ a0 hlt)) an
      · exact he
      · exact absurd ((h v₂ b0 bb).1 (aall v₂ b0 hgt)) bn
    · exact absurd ((h v₁ a0 ab).2 (ball v₁ a0 ab)) an
  · rcases h₂ with ⟨b0, bb, bn, -⟩ | ⟨b1, -⟩
    · exact absurd ((h v₂ b0 bb).1 (aall v₂ b0 bb)) bn
    · rw [a1, b1]

/-- Ascending order of lower bound, in terms of the comparator. -/
theorem pairwise_less_of_ascending (s : List BlockRange)
    (h : s.Pairwise (fun a b => a.1 ≤ b.1)) : s.Pairwise (fun a b => less b a = false) := by
  refine List.Pairwise.imp ?_ h
  intro a b hab
  simp only [less, decide_eq_false_iff_not, not_lt]
  exact hab

theorem ascending_of_pairwise_less (s : List BlockRange)
    (h : s.Pairwise (fun a b => less b a = false)) : s.Pairwise (fun a b => a.1 ≤ b.1) := by
  refine List.Pairwise.imp ?_ h
  intro a b hab
  simp only [less, decide_eq_false_iff_not, not_lt] at hab
  exact hab

/-! ## The merge-first procedure -/

/-- Merging keeps the ascending order of lower bounds, and no merged range
starts below the current one. -/
theorem mergeInto_ascending (cur : BlockRange) (rest : List BlockRange)
    (h : (cur :: rest).Pairwise (fun a b => a.1 ≤ b.1)) :
    (mergeInto cur rest).Pairwise (fun a b => a.1 ≤ b.1) ∧
      ∀ z ∈ mergeInto cur rest, cur.1 ≤ z.1 := by
  induction rest generalizing cur with
  | nil =>
    unfold mergeInto
    refine ⟨List.pairwise_singleton _ _, ?_⟩
    intro z hz
    rw [List.mem_singleton.1 hz]
  | cons t rest ih =>
    rw [List.pairwise_cons] at h
    obtain ⟨hcur, hrest⟩ := h
    have hrest2 := List.pairwise_cons.1 hrest
    unfold mergeInto
    split
    · exact ih (cur.1, max cur.2 t.2)
        (List.pairwise_cons.2 ⟨fun z hz => hcur z (List.mem_cons_of_mem _ hz), hrest2.2⟩)
    · obtain ⟨hp, hle⟩ := ih t hrest
      have hct : cur.1 ≤ t.1 := hcur t (List.mem_cons_self _ _)
      refine ⟨List.pairwise_cons.2 ⟨fun z hz => le_trans hct (hle z hz), hp⟩, ?_⟩
      intro z hz
      rcases List.mem_cons.1 hz with hz | hz
      · rw [hz]
      · exact le_trans hct (hle z hz)

/-- Merging does not change which values are blocked. -/
theorem blocked_mergeInto (cur : BlockRange) (rest : List BlockRange) (x : Int)
    (h : (cur :: rest).Pairwise (fun a b => a.1 ≤ b.1)) :
    Blocked (mergeInto cur rest) x ↔ Blocked (cur :: rest) x := by
  induction rest generalizing cur with
  | nil =>
    unfold mergeInto
    exact Iff.rfl
  | cons t rest ih =>
    rw [List.pairwise_cons] at h
    obtain ⟨hcur, hrest⟩ := h
    have hrest2 := List.pairwise_cons.1 hrest
    have hct : cur.1 ≤ t.1 := hcur t (List.mem_cons_self _ _)
    unfold mergeInto
    split
    · rename_i hmerge
      rw [ih (cur.1, max cur.2 t.2)
        (List.pairwise_cons.2 ⟨fun z hz => hcur z (List.mem_cons_of_mem _ hz), hrest2.2⟩)]
      rw [blocked_cons, blocked_cons, blocked_cons]
      simp only [le_max_iff]
      constructor
      · rintro (⟨h1, h2 | h2⟩ | h3)
        · exact Or.inl ⟨h1, h2⟩
        · by_cases hx : x ≤ cur.2
          · exact Or.inl ⟨h1, hx⟩
          · exact Or.inr (Or.inl ⟨by omega, h2⟩)
        · exact Or.inr (Or.inr h3)
      · rintro (⟨h1, h2⟩ | ⟨h1, h2⟩ | h3)
        · exact Or.inl ⟨h1, Or.inl h2⟩
        · exact Or.inl ⟨by omega, Or.inr h2⟩
        · exact Or.inr h3
    · rw [blocked_cons, ih t hrest, blocked_cons cur (t :: rest)]

theorem mergeRanges_ascending (s : List BlockRange)
    (h : s.Pairwise (fun a b => a.1 ≤ b.1)) :
    (mergeRanges s).Pairwise (fun a b => a.1 ≤ b.1) := by
  cases s with
  | nil => exact List.Pairwise.nil
  | cons t rest => exact (mergeInto_ascending t rest h).1

theorem blocked_mergeRanges (s : List BlockRange) (x : Int)
    (h : s.Pairwise (fun a b => a.1 ≤ b.1)) :
    Blocked (mergeRanges s) x ↔ Blocked s x := by
  cases s with
  | nil => exact Iff.rfl
  | cons t rest => exact blocked_mergeInto t rest x h

/-- For `bound ≥ 0` the merge-first procedure meets the specification. -/
theorem minValueMerged_isMinUnblocked (bound : Int) (ranges : List BlockRange)
    (hb : 0 ≤ bound) : IsMinUnblocked bound (sortSlice ranges) (minValueMerged bound ranges) := by
  have hasc := ascending_of_pairwise_less _ (sortSlice_pairwise ranges)
  have hm := loop_isMinUnblocked bound (mergeRanges (sortSlice ranges)) hb
    (pairwise_less_of_ascending _ (mergeRanges_ascending _ hasc))
  unfold minValueMerged
  rcases hm with ⟨a0, ab, an, aall⟩ | ⟨a1, aall⟩
  · exact Or.inl ⟨a0, ab, fun hx => an ((blocked_mergeRanges _ _ hasc).2 hx),
      fun u h0 hu => (blocked_mergeRanges _ u hasc).1 (aall u h0 hu)⟩
  · exact Or.inr ⟨a1, fun u h0 hu => (blocked_mergeRanges _ u hasc).1 (aall u h0 hu)⟩

/-! ## Index safety on slices of slices -/

/-- With an element at index 0 on both sides the comparator does not panic and
compares the lower bounds. -/
theorem lessRaw_eq (a b : List Int) (ha : 2 ≤ a.length) (hb : 2 ≤ b.length) :
    lessRaw a b = some (less (toBlockRange a) (toBlockRange b)) := by
  cases a with
  | nil => simp at ha
  | cons a0 as =>
    cases b with
    | nil => simp at hb
    | cons b0 bs => simp [lessRaw, less, toBlockRange]

/-- On an element with at least two entries the update of `minimum` does not
panic and reads the first two entries only. -/
theorem advanceRaw_eq (t : List Int) (c : Int) (ht : 2 ≤ t.length) :
    advanceRaw t c = some (advance (toBlockRange t) c) := by
  cases t with
  | nil => simp at ht
  | cons t0 ts =>
    cases ts with
    | nil => simp at ht
    | cons t1 tl =>
      simp only [advanceRaw, advance, toBlockRange, List.getElem?_cons_zero,
        List.getElem?_cons_succ, List.getD_cons_zero, List.getD_cons_succ]
      split_ifs <;> first | rfl | omega

theorem insertByLessRaw_eq (x : List Int) (l : List (List Int)) (hx : 2 ≤ x.length)
    (hl : ∀ t ∈ l, 2 ≤ t.length) :
    ∃ s, insertByLessRaw x l = some s ∧ (∀ t ∈ s, 2 ≤ t.length) ∧
      s.map toBlockRange = insertByLess (toBlockRange x) (l.map toBlockRange) := by
  induction l with
  | nil =>
    refine ⟨[x], rfl, ?_, rfl⟩
    intro t ht
    rw [List.mem_singleton.1 ht]
    exact hx
  | cons y ys ih =>
    have hy : 2 ≤ y.length := hl y (List.mem_cons_self _ _)
    have hys : ∀ t ∈ ys, 2 ≤ t.length := fun t ht => hl t (List.mem_cons_of_mem _ ht)
    obtain ⟨s, hs, hlen, hmap⟩ := ih hys
    unfold insertByLessRaw
    rw [lessRaw_eq y x hy hx, List.map_cons]
    unfold insertByLess
    cases hless : less (toBlockRange y) (toBlockRange x) with
    | true =>
      refine ⟨y :: s, by simp only [hs], ?_, ?_⟩
      · intro t ht
        rcases List.mem_cons.1 ht with ht | ht
        · rw [ht]
          exact hy
        · exact hlen t ht
      · simp only [List.map_cons, hmap, if_true]
    | false =>
      refine ⟨x :: y :: ys, rfl, ?_, ?_⟩
      · intro t ht
        rcases List.mem_cons.1 ht with ht | ht
        · rw [ht]
          exact hx
        · exact hl t ht
      · simp only [List.map_cons, Bool.false_eq_true, if_false]

theorem sortSliceRaw_eq (l : List (List Int)) (hl : ∀ t ∈ l, 2 ≤ t.length) :
    ∃ s, sortSliceRaw l = some s ∧ (∀ t ∈ s, 2 ≤ t.length) ∧
      s.map toBlockRange = sortSlice (l.map toBlockRange) := by
  induction l with
  | nil => exact ⟨[], rfl, by simp, rfl⟩
  | cons x xs ih =>
    have hx : 2 ≤ x.length := hl x (List.mem_cons_self _ _)
    obtain ⟨s, hs, hlen, hmap⟩ := ih (fun t ht => hl t (List.mem_cons_of_mem _ ht))
    obtain ⟨r, hr, hrlen, hrmap⟩ := insertByLessRaw_eq x s hx hlen
    refine ⟨r, ?_, hrlen, ?_⟩
    · unfold sortSliceRaw
      rw [hs]
      exact hr
    · rw [hrmap, hmap, List.map_cons]
      rfl

theorem loopRaw_eq (maxValue : Int) (s : List (List Int)) (c : Int)
    (hs : ∀ t ∈ s, 2 ≤ t.length) :
    loopRaw maxValue s c = some (loop maxValue (s.map toBlockRange) c) := by
  induction s generalizing c with
  | nil => rfl
  | cons t rest ih =>
    have ht : 2 ≤ t.length := hs t (List.mem_cons_self _ _)
    rw [List.map_cons]
    unfold loopRaw loop
    rw [advanceRaw_eq t c ht]
    simp only
    split_ifs
    · rfl
    · exact ih _ (fun z hz => hs z (List.mem_cons_of_mem _ hz))

/-- On elements with at least two entries each, `minValue` runs to its end
without an index out of range and returns what it returns on the pairs of
first two entries. -/
theorem minValueRaw_eq (maxValue : Int) (blockRanges : List (List Int))
    (h : ∀ t ∈ blockRanges, 2 ≤ t.length) :
    minValueRaw maxValue blockRanges =
      some (minValue maxValue (blockRanges.map toBlockRange)) := by
  obtain ⟨s, hs, hlen, hmap⟩ := sortSliceRaw_eq blockRanges h
  unfold minValueRaw minValue
  rw [hs]
  simp only
  rw [loopRaw_eq maxValue s 0 hlen, hmap]

/-- Over unbounded integers and for `bound ≥ 0`, the algorithm returns what the
merge-first procedure of the design notes returns. -/
theorem minValue_eq_minValueMerged (bound : Int) (ranges : List BlockRange) (hb : 0 ≤ bound)
    (_hwf : ∀ t ∈ ranges, t.1 ≤ t.2) : minValue bound ranges = minValueMerged bound ranges :=
  isMinUnblocked_unique bound ranges (sortSlice ranges) _ _
    (fun u _ _ => (blocked_perm (sortSlice_perm ranges) u).symm)
    (minValue_isMinUnblocked bound ranges hb) (minValueMerged_isMinUnblocked bound ranges hb)

/-- Over unbounded integers and for `bound < 0`, the algorithm returns 0 on the
empty list and `-1` on every non-empty one. -/
theorem minValue_neg_bound (bound : Int) (hb : bound < 0) :
    minValue bound [] = 0 ∧ ∀ ranges : List BlockRange, ranges ≠ [] → minValue bound ranges = -1 := by
  refine ⟨rfl, ?_⟩
  intro ranges hne
  unfold minValue
  cases hs : sortSlice ranges with
  | nil =>
    have hp := sortSlice_perm ranges
    rw [hs] at hp
    exact absurd (List.Perm.nil_eq hp) (fun h => hne h.symm)
  | cons t rest =>
    unfold loop
    have := le_advance t 0
    rw [if_pos (by omega)]

/-! ## The claims -/

/-- C1 fails on the code: with the single range `(0, MaxInt64)`, at
maxValue = 10 as at maxValue = MaxInt64, the sum `tuple[1] + 1` wraps and
`minValue` returns MinInt64: a result other than `-1` that is not in
`[0, maxValue]`. -/
theorem minValue64_result_out_of_range :
    minValue64 10 [(0, maxInt64)] = minInt64 ∧ minValue64 maxInt64 [(0, maxInt64)] = minInt64 ∧
      minInt64 ≠ -1 ∧ ¬ (0 ≤ minInt64) := by
  decide

/-- C2 fails on the code: at bound = 10 and ranges
[(MinInt64, MaxInt64), (MinInt64, 5)] `minValue` returns 6 after a wrap, and 6
lies in the first range: the value returned is not an unblocked one. -/
theorem minValue64_result_blocked :
    minValue64 10 [(minInt64, maxInt64), (minInt64, 5)] = 6 ∧
      ∃ t ∈ [(minInt64, maxInt64), (minInt64, 5)], t.1 ≤ 6 ∧ 6 ≤ t.2 := by
  decide

/-- C3: for every bound ≥ 0 and every list of intervals, on every run of the
code (64-bit `int` with wraparound, any order `sort.Slice` gives to equal
lower bounds) that returns the sentinel `-1`, every integer of `[0, bound]`
lies in some input interval. -/
theorem returns_sentinel_all_blocked (bound : Int) (ranges : List BlockRange)
    (_hb : 0 ≤ bound) (hb64 : IsInt64 bound) (h64 : ∀ t ∈ ranges, IsInt64 t.1 ∧ IsInt64 t.2)
    (hv : MinValueReturns bound ranges (-1)) :
    ∀ u, 0 ≤ u → u ≤ bound → ∃ t ∈ ranges, t.1 ≤ u ∧ u ≤ t.2 :=
  (returns_blocked bound ranges (-1) hb64 h64 hv).1 rfl

theorem returns_sentinel_all_blocked_witness :
    (0 : Int) ≤ 10 ∧ IsInt64 10 ∧
      (∀ t ∈ [(minInt64, maxInt64), (minInt64, -2)], IsInt64 t.1 ∧ IsInt64 t.2) ∧
        MinValueReturns 10 [(minInt64, maxInt64), (minInt64, -2)] (-1) ∧
          ∀ u : Int, 0 ≤ u → u ≤ 10 →
            ∃ t ∈ [(minInt64, maxInt64), (minInt64, -2)], t.1 ≤ u ∧ u ≤ t.2 :=
  ⟨by decide, by decide, by decide,
    ⟨sortSlice [(minInt64, maxInt64), (minInt64, -2)], sortSlice_sortResult _, by decide⟩,
    returns_sentinel_all_blocked 10 [(minInt64, maxInt64), (minInt64, -2)] (by decide)
      (by decide) (by decide)
      ⟨sortSlice [(minInt64, maxInt64), (minInt64, -2)], sortSlice_sortResult _, by decide⟩⟩

/-- C4 fails on the code: at bound = MaxInt64 and ranges [(0, MaxInt64)], as at
bound = 10, every integer of `[0, bound]` lies in the range, and `minValue`
returns MinInt64, not the sentinel `-1`. -/
theorem minValue64_all_blocked_not_sentinel :
    (∀ u : Int, 0 ≤ u → u ≤ maxInt64 → ∃ t ∈ [((0 : Int), maxInt64)], t.1 ≤ u ∧ u ≤ t.2) ∧
      minValue64 maxInt64 [(0, maxInt64)] ≠ -1 ∧ minValue64 10 [(0, maxInt64)] ≠ -1 :=
  ⟨fun _ h0 hu => ⟨(0, maxInt64), List.mem_singleton.2 rfl, h0, hu⟩, by decide, by decide⟩

/-- C5: for bound = 8 and ranges = [(0,3),(1,2),(3,9),(8,8)], `minValue`
returns the sentinel `-1`. -/
theorem minValue_bound8_sentinel : minValue 8 [(0, 3), (1, 2), (3, 9), (8, 8)] = -1 := by
  decide

/-- C6 fails on the code: for maxValue = 8 and blockedRanges =
[(0,3),(1,2),(3,9),(8,8)] `minValue` returns `-1`, not the `10` of the doc
comment's example; on these ranges it returns `10` exactly when
maxValue ≥ 10. -/
theorem minValue64_doc_example :
    minValue64 8 [(0, 3), (1, 2), (3, 9), (8, 8)] = -1 ∧
      minValue64 8 [(0, 3), (1, 2), (3, 9), (8, 8)] ≠ 10 ∧
        ∀ maxValue : Int,
          minValue64 maxValue [(0, 3), (1, 2), (3, 9), (8, 8)] = if 10 ≤ maxValue then 10 else -1 := by
  refine ⟨by decide, by decide, ?_⟩
  intro maxValue
  have hs : sortSlice [(0, 3), (1, 2), (3, 9), (8, 8)] = [(0, 3), (1, 2), (3, 9), (8, 8)] := by
    decide
  rw [minValue64_eq_minValue maxValue _ (by decide)]
  unfold minValue
  rw [hs]
  simp only [loop, advance]
  split_ifs <;> omega

/-- C7: the sweep can misbehave: at bound = 10 and the well-formed intervals
[(0, MaxInt64), (1, 5)], where `(1, 5)` starts later than `(0, MaxInt64)`,
overlaps it and has a smaller upper bound, `minValue` returns MinInt64, which
is neither the smallest integer of `[0, bound]` outside every interval nor the
`-1` due when there is none. -/
theorem minValue64_can_misbehave :
    ∃ (bound : Int) (ranges : List BlockRange),
      0 ≤ bound ∧ IsInt64 bound ∧ (∀ t ∈ ranges, IsInt64 t.1 ∧ IsInt64 t.2) ∧
        (∀ t ∈ ranges, t.1 ≤ t.2) ∧
          (∃ a ∈ ranges, ∃ b ∈ ranges, a.1 < b.1 ∧ b.1 ≤ a.2 ∧ b.2 < a.2) ∧
            ¬ IsMinUnblocked bound ranges (minValue64 bound ranges) := by
  refine ⟨10, [(0, maxInt64), (1, 5)], by decide, by decide, by decide, by decide,
    ⟨(0, maxInt64), by decide, (1, 5), by decide, by decide⟩, ?_⟩
  have hv : minValue64 10 [(0, maxInt64), (1, 5)] = minInt64 := by
    decide
  rw [hv]
  rintro (⟨h0, -⟩ | ⟨h1, -⟩)
  · exact absurd h0 (by decide)
  · exact absurd h1 (by decide)

/-- C8 fails on the code: at bound = 10 the lists
[(MinInt64, MaxInt64), (MinInt64, 5)] and [(MinInt64, 5), (MinInt64, MaxInt64)]
are permutations of each other, and `minValue` returns 6 on the first and
MinInt64 on the second. -/
theorem minValue64_perm_differs :
    List.Perm [(minInt64, maxInt64), (minInt64, 5)] [(minInt64, 5), (minInt64, maxInt64)] ∧
      minValue64 10 [(minInt64, maxInt64), (minInt64, 5)] = 6 ∧
        minValue64 10 [(minInt64, 5), (minInt64, maxInt64)] = minInt64 := by
  decide

/-- C9: for every bound ≥ 0, `minValue` on the empty list of intervals
returns 0. -/
theorem minValue_nil (bound : Int) (_hb : 0 ≤ bound) : minValue bound [] = 0 := by
  rfl

theorem minValue_nil_witness : (0 : Int) ≤ 5 ∧ minValue 5 [] = 0 :=
  ⟨by decide, minValue_nil 5 (by decide)⟩

/-- C10 fails on the code: at bound = 10, adding the interval `(MinInt64, -5)`,
whose upper bound is below 0, after the only range of [(MinInt64, MaxInt64)]
changes the result of `minValue` from MinInt64 to `-4`. -/
theorem minValue64_insert_outside_differs :
    (0 : Int) ≤ 10 ∧ (-5 : Int) < 0 ∧
      minValue64 10 ([(minInt64, maxInt64)] ++ (minInt64, -5) :: []) = -4 ∧
        minValue64 10 ([(minInt64, maxInt64)] ++ []) = minInt64 := by
  decide

/-- C11: the only effect of `minValue` on the caller's data is the in-place
sort: when the call returns, with a value or with `-1`, the caller's
`blockRanges` holds the same intervals as before (a permutation of the input,
each pair unchanged) in ascending order of lower bound. -/
theorem minValueRun_frame (maxValue : Int) (blockRanges : List BlockRange) :
    (minValueRun maxValue blockRanges).1 = minValue maxValue blockRanges ∧
      (minValueRun maxValue blockRanges).2.Perm blockRanges ∧
        (minValueRun maxValue blockRanges).2.Pairwise (fun a b => a.1 ≤ b.1) :=
  ⟨rfl, sortSlice_perm blockRanges,
    ascending_of_pairwise_less _ (sortSlice_pairwise blockRanges)⟩

/-- C12 fails on the code: at bound = 10 the lists
[(MinInt64, MaxInt64), (MinInt64, 5)] and [(MinInt64, 5), (MinInt64, MaxInt64)]
are permutations of each other, both in ascending order of lower bound, and
the sweep returns 6 on the first and MinInt64 on the second. -/
theorem loop64_tie_order_differs :
    List.Perm [(minInt64, maxInt64), (minInt64, 5)] [(minInt64, 5), (minInt64, maxInt64)] ∧
      List.Pairwise (fun a b : BlockRange => a.1 ≤ b.1) [(minInt64, maxInt64), (minInt64, 5)] ∧
        List.Pairwise (fun a b : BlockRange => a.1 ≤ b.1) [(minInt64, 5), (minInt64, maxInt64)] ∧
          loop64 10 [(minInt64, maxInt64), (minInt64, 5)] 0 = 6 ∧
            loop64 10 [(minInt64, 5), (minInt64, maxInt64)] 0 = minInt64 := by
  decide

/-- C13 fails on the code: at bound = 10 and the well-formed intervals
[(MinInt64, MaxInt64), (MinInt64, 5)] `minValue` returns 6 where the merge-first
procedure returns `-1`; at bound = MaxInt64 and [(0, MaxInt64)] it returns
MinInt64 where the merge-first procedure returns `-1`. -/
theorem minValue64_ne_minValueMerged :
    (∀ t ∈ [(minInt64, maxInt64), (minInt64, 5)], t.1 ≤ t.2) ∧
      minValue64 10 [(minInt64, maxInt64), (minInt64, 5)] = 6 ∧
        minValueMerged 10 [(minInt64, maxInt64), (minInt64, 5)] = -1 ∧
          minValue64 maxInt64 [(0, maxInt64)] = minInt64 ∧
            minValueMerged maxInt64 [(0, maxInt64)] = -1 := by
  decide

/-- C14 fails on the code.  With `m` swept as the code sweeps (`loopAll64`): at
bound = 10 and [(0, 20), (5, MaxInt64)] the early exit returns `-1`, while
`m` = MinInt64 ≤ bound.  With `m` swept over unbounded integers (`loopAll`): at
bound = MaxInt64 and [(0, MaxInt64)] `minValue` returns MinInt64, while
`m` = 2^63 > bound asks for `-1`. -/
theorem minValue64_early_exit_differs :
    (minValue64 10 [(0, 20), (5, maxInt64)] = -1 ∧
        loopAll64 (sortSlice [(0, 20), (5, maxInt64)]) 0 = minInt64 ∧
          (if minInt64 ≤ 10 then minInt64 else -1) ≠ (-1 : Int)) ∧
      (minValue64 maxInt64 [(0, maxInt64)] = minInt64 ∧
        loopAll (sortSlice [(0, maxInt64)]) 0 = 2 ^ 63 ∧
          (if (2 : Int) ^ 63 ≤ maxInt64 then (2 : Int) ^ 63 else -1) ≠ minInt64) := by
  decide

/-- C15 fails on the code: at bound = -5 and the non-empty list
[(0, MaxInt64)] the sum wraps and `minValue` returns MinInt64, not `-1`. -/
theorem minValue64_neg_bound_differs :
    (-5 : Int) < 0 ∧ minValue64 (-5) [(0, maxInt64)] = minInt64 ∧ minInt64 ≠ -1 := by
  decide

/-- C16 fails on the code: at bound = 10, `minValue` returns MinInt64 on the 12
elements of `tieRanges`, which `sort.Slice` sorts by insertion; with the
malformed `(2, 1)` added in front, `sort.Slice` leaves the 13 elements in the
order `pdqOrder`, a result of the sort on which the loop returns 6. -/
theorem minValue64_insert_malformed_differs :
    (0 : Int) ≤ 10 ∧ (2 : Int) > 1 ∧ minValue64 10 tieRanges = minInt64 ∧
      SortResult ((2, 1) :: tieRanges) pdqOrder ∧ loop64 10 pdqOrder 0 = 6 := by
  decide

/-- C17: with Go's `int` as 64-bit two's complement with wraparound, for every
bound and every list of intervals whose upper bounds are all strictly below
`2^63 - 1`, no `tuple[1] + 1` wraps and `minValue` returns what the same
algorithm returns over unbounded integers. -/
theorem minValue64_no_wrap (bound : Int) (ranges : List BlockRange)
    (h64 : ∀ t ∈ ranges, IsInt64 t.2) (hlt : ∀ t ∈ ranges, t.2 < 2 ^ 63 - 1) :
    (∀ t ∈ ranges, wrap64 (t.2 + 1) = t.2 + 1) ∧
      minValue64 bound ranges = minValue bound ranges :=
  ⟨fun t ht => wrap64_succ t.2 (h64 t ht).1 (hlt t ht),
    minValue64_eq_minValue bound ranges (fun t ht => ⟨(h64 t ht).1, hlt t ht⟩)⟩

theorem minValue64_no_wrap_witness :
    (∀ t ∈ mainRanges, IsInt64 t.2) ∧ (∀ t ∈ mainRanges, t.2 < 2 ^ 63 - 1) ∧
      (∀ t ∈ mainRanges, wrap64 (t.2 + 1) = t.2 + 1) ∧
        minValue64 15 mainRanges = minValue 15 mainRanges :=
  ⟨by decide, by decide, minValue64_no_wrap 15 mainRanges (by decide) (by decide)⟩

/-- C18: for every bound and every list of ranges whose inner slices all
have at least two elements, `minValue` terminates without an index out of
range: the comparator's `blockRanges[i][0]` and the loop's `tuple[0]`,
`tuple[1]` are in bounds (no `none`), and the value returned is the one for
the pairs of first two elements, so elements past the second are ignored. -/
theorem minValueRaw_safe (bound : Int) (ranges : List (List Int))
    (h : ∀ t ∈ ranges, 2 ≤ t.length) :
    minValueRaw bound ranges = some (minValue bound (ranges.map toBlockRange)) ∧
      (∀ a ∈ ranges, ∀ b ∈ ranges, lessRaw a b ≠ none) ∧
        (∀ t ∈ ranges, ∀ minimum, advanceRaw t minimum ≠ none) := by
  refine ⟨minValueRaw_eq bound ranges h, ?_, ?_⟩
  · intro a ha b hb
    rw [lessRaw_eq a b (h a ha) (h b hb)]
    exact Option.some_ne_none _
  · intro t ht minimum
    rw [advanceRaw_eq t minimum (h t ht)]
    exact Option.some_ne_none _

theorem minValueRaw_safe_witness :
    (∀ t ∈ [[(8 : Int), 8], [3, 9, 7], [0, 0], [1, 2, 4, 4]], 2 ≤ t.length) ∧
      minValueRaw 15 [[8, 8], [3, 9, 7], [0, 0], [1, 2, 4, 4]] = some 10 ∧
        (minValueRaw 15 [[8, 8], [3, 9, 7], [0, 0], [1, 2, 4, 4]] =
            some (minValue 15 ([[8, 8], [3, 9, 7], [0, 0], [1, 2, 4, 4]].map toBlockRange)) ∧
          (∀ a ∈ [[(8 : Int), 8], [3, 9, 7], [0, 0], [1, 2, 4, 4]],
            ∀ b ∈ [[(8 : Int), 8], [3, 9, 7], [0, 0], [1, 2, 4, 4]], lessRaw a b ≠ none) ∧
            (∀ t ∈ [[(8 : Int), 8], [3, 9, 7], [0, 0], [1, 2, 4, 4]],
              ∀ minimum, advanceRaw t minimum ≠ none)) :=
  ⟨by decide, by decide,
    minValueRaw_safe 15 [[8, 8], [3, 9, 7], [0, 0], [1, 2, 4, 4]] (by decide)⟩

end Hopper
